import Mathlib

/-!
Verification development for `core/testcasecontroller/algorithm/module/module.py`
(ianvs algorithm `Module`): configuration validation and field binding,
hyperparameter expansion (cartesian product over named axes merged with
externally sourced base hyperparameters), and capability resolution.

Python dicts are embedded as insertion-ordered association lists with unique
keys; dict assignment keeps the position of an existing key and appends new
keys at the end, exactly as CPython does.  Scalar (immutable) Python values
are embedded as `JVal`.  For the aliasing properties of the expansion, a
second instantiation of the same generic pipeline tracks object identities
(`AVal`): `copy.deepcopy` re-creates every mutable container at a fresh
address while immutable atoms need no copy.
-/

/-- Immutable scalar Python values appearing in module configurations. -/
inductive JVal where
  | vstr : String → JVal
  | vint : Int → JVal
  | vbool : Bool → JVal
  | vnone : JVal
deriving DecidableEq, Repr

/-- A Python dict: insertion-ordered association list with unique keys. -/
abbrev Dict (α : Type) := List (String × α)

/-- Python `d[k] = v`: replace the value in place if the key is present
(keeping its position), otherwise append the new pair at the end. -/
def dictSet {α : Type} : Dict α → String → α → Dict α
  | [], k, v => [(k, v)]
  | (k', v') :: rest, k, v =>
    if k' = k then (k', v) :: rest else (k', v') :: dictSet rest k v

/-- Python `d.update(e)` / `d.update(**e)`: assign every pair of `e` into `d`
in order, later assignments overwriting earlier ones. -/
def dictUpdate {α : Type} : Dict α → Dict α → Dict α
  | d, [] => d
  | d, (k, v) :: rest => dictUpdate (dictSet d k v) rest

/-- Python `d.get(k)` / `d[k]`: the value stored under `k`, if any. -/
def dictGet? {α : Type} : Dict α → String → Option α
  | [], _ => none
  | (k', v) :: rest, k => if k' = k then some v else dictGet? rest k

/-- Python `d.popitem()`: remove and return the last inserted pair, together
with the dict as left behind by the removal; `none` models the `KeyError`
raised on an empty dict. -/
def popitem {α : Type} (d : Dict α) : Option ((String × α) × Dict α) :=
  match d.getLast? with
  | none => none
  | some p => some (p, d.dropLast)

/-- The `{values: [...]}` specification dict of one hyperparameter axis. -/
abbrev SpecDict (α : Type) := Dict (List α)

/-- One element of the `hyperparameters` configuration list: a dict mapping
an axis name to its `{values: [...]}` specification. -/
abbrev Entry (α : Type) := Dict (SpecDict α)

/-- A Python value as it may sit in a `Module` attribute: a scalar, a flat
mapping (one expanded hyperparameter combination), the raw `hyperparameters`
configuration list, or an expanded list of combinations. -/
inductive CVal where
  | jval : JVal → CVal
  | dict : Dict JVal → CVal
  | entries : List (Entry JVal) → CVal
  | dicts : List (Dict JVal) → CVal
deriving DecidableEq, Repr

/-- Python truthiness of a `CVal`: empty strings, zero, `None`, `False` and
empty containers are falsy. -/
def truthy : CVal → Bool
  | .jval (.vstr s) => !(s == "")
  | .jval (.vint n) => !(n == 0)
  | .jval (.vbool b) => b
  | .jval .vnone => false
  | .dict d => !d.isEmpty
  | .entries es => !es.isEmpty
  | .dicts ds => !ds.isEmpty

/-- Python `isinstance(v, str)`. -/
def isStr : CVal → Bool
  | .jval (.vstr _) => true
  | _ => false

/-- Python `v == s` for a string `s`: only equal strings compare equal,
values of any other type compare unequal. -/
def cvalEqStr (v : CVal) (s : String) : Bool :=
  match v with
  | .jval (.vstr t) => t == s
  | _ => false

/-- Errors raised by the module: each constructor stands for one `raise` site
(`ValueError`, `RuntimeError`, `KeyError`, `TypeError` or `AttributeError`),
carrying the data interpolated into the Python message where a claim needs it. -/
inductive ModErr where
  | keyError
  | noneNotIterable
  | fileNotFound
  | fileInvalid
  | badAxes
  | typeNotProvided (t : CVal)
  | typeNotSupported (t : CVal) (valid : List String)
  | nameNotProvided (n : CVal)
  | urlNotString (u : CVal)
  | urlRequired (u : CVal)
  | bmLoadFailed
  | hemLoadFailed
  | noAttr (s : String)
deriving DecidableEq, Repr

/-- Modelled from the spec: the external collaborators `utils.is_local_file`
and `utils.yaml2dict` (`core.common.utils`, not part of this subsystem) are
abstracted as a file environment: a path value either is not a local file,
fails to parse, or yields a flat key-to-value mapping. -/
inductive FileRes (α : Type) where
  | notLocal
  | parseErr
  | ok (d : Dict α)

/-- Modelled from the spec: `get_full_combinations`
(`core.testcasecontroller.generation_assistant`, specified only as the
combinatorics utility for full factorial expansion).  The cartesian product
across the named axes, one combination dict per tuple, the leftmost axis
varying slowest; zero axes yield the single empty combination. -/
def getFullCombinations {α : Type} : List (String × List α) → List (Dict α)
  | [] => [[]]
  | (n, vs) :: rest =>
    (vs.map (fun v => (getFullCombinations rest).map (fun c => (n, v) :: c))).flatten

/-- `Module._parse_other_hyperparameters`, as a fold over the declared file
paths with the accumulated base mapping: a path that is not a local file or
fails to parse raises, an existing file's mapping is merged over the
accumulator with `base_hps.update(**other_hps)`. -/
def parseOtherHyperparameters {α : Type} (fs : α → FileRes α) :
    List α → Dict α → Except ModErr (Dict α)
  | [], base => .ok base
  | f :: rest, base =>
    match fs f with
    | .notLocal => .error .fileNotFound
    | .parseErr => .error .fileInvalid
    | .ok d => parseOtherHyperparameters fs rest (dictUpdate base d)

/-- The state accumulated by the first loop of `Module._parse_hyperparameters`:
the base mapping, the non-reserved `(name, values)` axes in declaration order
(`values` is `none` when the `values` key is absent, i.e. `spec.get` returned
`None`), and each axis-entry dict as left behind by `popitem`. -/
structure Collected (α : Type) where
  base : Dict α
  axes : List (String × Option (List α))
  entriesAfter : List (Entry α)

/-- The first loop of `Module._parse_hyperparameters`: pop the last axis item
off every entry; a `other_hyperparameters` axis replaces the base mapping
with the merge of its files, any other axis is appended to the axis list. -/
def collectAxes {α : Type} (fs : α → FileRes α) :
    List (Entry α) → Dict α → List (String × Option (List α)) → List (Entry α) →
    Except ModErr (Collected α)
  | [], base, axes, ea => .ok ⟨base, axes, ea⟩
  | e :: rest, base, axes, ea =>
    match popitem e with
    | none => .error .keyError
    | some ((hpName, hpSpec), eAfter) =>
      if hpName = "other_hyperparameters" then
        match dictGet? hpSpec "values" with
        | none => .error .noneNotIterable
        | some files =>
          match parseOtherHyperparameters fs files [] with
          | .error err => .error err
          | .ok newBase => collectAxes fs rest newBase axes (ea ++ [eAfter])
      else
        collectAxes fs rest base (axes ++ [(hpName, dictGet? hpSpec "values")]) (ea ++ [eAfter])

/-- `itertools.product(*values_list)` raises `TypeError` as soon as one of its
arguments is `None` (an axis whose spec has no `values` key). -/
def resolveAxes {α : Type} :
    List (String × Option (List α)) → Except ModErr (List (String × List α))
  | [] => .ok []
  | (_, none) :: _ => .error .noneNotIterable
  | (n, some vs) :: rest =>
    match resolveAxes rest with
    | .error err => .error err
    | .ok axes => .ok ((n, vs) :: axes)

/-- `copy.deepcopy` on a dict, generic in the per-value copy operation `dc`
(which threads a state, e.g. a fresh-address counter). -/
def deepcopyDict {α σ : Type} (dc : α → σ → α × σ) : Dict α → σ → Dict α × σ
  | [], s => ([], s)
  | (k, v) :: rest, s =>
    ((k, (dc v s).1) :: (deepcopyDict dc rest (dc v s).2).1,
     (deepcopyDict dc rest (dc v s).2).2)

/-- The second loop of `Module._parse_hyperparameters`: for every combination,
deep-copy the base mapping and merge the combination over it. -/
def expandCombos {α σ : Type} (dc : α → σ → α × σ) (base : Dict α) :
    List (Dict α) → σ → List (Dict α) × σ
  | [], s => ([], s)
  | c :: rest, s =>
    (dictUpdate (deepcopyDict dc base s).1 c ::
       (expandCombos dc base rest (deepcopyDict dc base s).2).1,
     (expandCombos dc base rest (deepcopyDict dc base s).2).2)

/-- `Module._parse_hyperparameters`, generic in the deep-copy semantics:
collect the base mapping and the axes, expand the full combinations, and merge
each combination over a deep copy of the base.  Returns the expanded list,
the entries as mutated by `popitem`, and the final copy state. -/
def parseHyperparametersGen {α σ : Type} (dc : α → σ → α × σ)
    (fs : α → FileRes α) (es : List (Entry α)) (s : σ) :
    Except ModErr (List (Dict α) × List (Entry α) × σ) :=
  match collectAxes fs es [] [] [] with
  | .error err => .error err
  | .ok col =>
    match resolveAxes col.axes with
    | .error err => .error err
    | .ok axes =>
      .ok ((expandCombos dc col.base (getFullCombinations axes) s).1,
           col.entriesAfter,
           (expandCombos dc col.base (getFullCombinations axes) s).2)

/-- At the level of Python value equality (`==`), `copy.deepcopy` returns an
equal value, so the per-value copy is the identity with no state. -/
def deepcopyVal (v : JVal) (s : Unit) : JVal × Unit := (v, s)

/-- `Module._parse_hyperparameters` at the value level: the expanded
hyperparameter list and the entries as mutated by `popitem`. -/
def parseHyperparameters (fs : JVal → FileRes JVal) (es : List (Entry JVal)) :
    Except ModErr (List (Dict JVal) × List (Entry JVal)) :=
  match parseHyperparametersGen deepcopyVal fs es () with
  | .error err => .error err
  | .ok (l, ea, _) => .ok (l, ea)

/-- Modelled from the spec: the fixed `ModuleType` enumeration
(`core.common.constant`, not part of this subsystem), whose member values per
the spec are the model capability `"basemodel"` and the mining capability
`"hard_example_mining"`. -/
def moduleTypes : List String := ["basemodel", "hard_example_mining"]

/-- The `Module` descriptor: the attributes assigned by `__init__` and
`_parse_config` (`self.__dict__`). -/
structure PyModule where
  type : CVal
  name : CVal
  url : CVal
  hyperparameters : CVal
  hyperparameters_list : CVal
deriving DecidableEq, Repr

/-- The attribute values set by `Module.__init__` before `_parse_config`. -/
def initModule : PyModule :=
  ⟨.jval (.vstr ""), .jval (.vstr ""), .jval (.vstr ""), .jval .vnone, .jval .vnone⟩

/-- `self.__dict__[k] = v` for the keys present in `self.__dict__`; an
unrecognized key leaves the module unchanged (`k in self.__dict__` fails). -/
def setField (m : PyModule) (k : String) (v : CVal) : PyModule :=
  if k = "type" then { m with type := v }
  else if k = "name" then { m with name := v }
  else if k = "url" then { m with url := v }
  else if k = "hyperparameters" then { m with hyperparameters := v }
  else if k = "hyperparameters_list" then { m with hyperparameters_list := v }
  else m

/-- `Module._check_fields`, with the exact conditions of the source: the
`type` and `name` guards are conjunctions (`not value and not isinstance`),
the membership test compares the `type` value against the `ModuleType`
member values with `==`, and `url` must be a string. -/
def checkFields (m : PyModule) : Except ModErr Unit :=
  if !(truthy m.type) && !(isStr m.type) then .error (.typeNotProvided m.type)
  else if !(moduleTypes.any (fun s => cvalEqStr m.type s)) then
    .error (.typeNotSupported m.type moduleTypes)
  else if !(truthy m.name) && !(isStr m.name) then .error (.nameNotProvided m.name)
  else if !(isStr m.url) then .error (.urlNotString m.url)
  else .ok ()

/-- The loop of `Module._parse_config` over `config.items()`: a
`hyperparameters` key first routes its value through
`_parse_hyperparameters` (storing the result in `hyperparameters_list`) and
then, like every other recognized key, is bound verbatim — the bound value
being the very object mutated by parsing.  Returns the final module together
with the configuration as it stands after construction. -/
def parseConfigLoop (fs : JVal → FileRes JVal) :
    PyModule → List (String × CVal) → Except ModErr (PyModule × List (String × CVal))
  | m, [] => .ok (m, [])
  | m, (k, v) :: rest =>
    if k = "hyperparameters" then
      match v with
      | .entries es =>
        match parseHyperparameters fs es with
        | .error err => .error err
        | .ok (l, ea) =>
          let v' := CVal.entries ea
          let m' := setField { m with hyperparameters_list := .dicts l } k v'
          match parseConfigLoop fs m' rest with
          | .error err => .error err
          | .ok (mf, restAfter) => .ok (mf, (k, v') :: restAfter)
      | _ => .error .badAxes
    else
      match parseConfigLoop fs (setField m k v) rest with
      | .error err => .error err
      | .ok (mf, restAfter) => .ok (mf, (k, v) :: restAfter)

/-- `Module.__init__`: bind the configuration, then `_check_fields`.  Returns
the constructed module and the caller's configuration as left behind. -/
def moduleInit (fs : JVal → FileRes JVal) (config : List (String × CVal)) :
    Except ModErr (PyModule × List (String × CVal)) :=
  match parseConfigLoop fs initModule config with
  | .error err => .error err
  | .ok (m, ca) =>
    match checkFields m with
    | .error err => .error err
    | .ok _ => .ok (m, ca)

/-- The result of `Module.basemodel_func`: an instance of the registered
class, recorded as the class name together with the keyword arguments
`(**self.hyperparameters)` it was constructed with. -/
inductive BmRes where
  | instanceOf (name : CVal) (kwargs : Dict JVal)
deriving DecidableEq, Repr

/-- `Module.basemodel_func`.  The dynamic load and the registry lookup are
external collaborators, abstracted by `lo` (load and lookup succeeded) and
`co` (the constructor call itself succeeded); every failure inside the `try`
is wrapped into one `RuntimeError`, and applying `**self.hyperparameters`
when the attribute is not a mapping is such a failure. -/
def basemodelFunc (lo co : Bool) (m : PyModule) : Except ModErr BmRes :=
  if !(truthy m.url) then .error (.urlRequired m.url)
  else if !lo then .error .bmLoadFailed
  else
    match m.hyperparameters with
    | .dict d => if co then .ok (.instanceOf m.name d) else .error .bmLoadFailed
    | _ => .error .bmLoadFailed

/-- The result of `Module.hard_example_mining_func`: either an instance of an
externally loaded class, or the built-in descriptor dict. -/
inductive HemRes where
  | loaded (name : CVal) (kwargs : Dict JVal)
  | builtin (d : Dict CVal)
deriving DecidableEq, Repr

/-- `Module.hard_example_mining_func`: with a truthy `url`, load and
instantiate externally (abstracted by `lo`, failures wrapped into one
`RuntimeError`); otherwise build `{"method": self.name}` and add a `"param"`
key only when `self.hyperparameters` is truthy. -/
def hardExampleMiningFunc (lo : Bool) (m : PyModule) : Except ModErr HemRes :=
  if truthy m.url then
    if lo then
      match m.hyperparameters with
      | .dict d => .ok (.loaded m.name d)
      | _ => .error .hemLoadFailed
    else .error .hemLoadFailed
  else
    let hem : Dict CVal := [("method", m.name)]
    let hem := if truthy m.hyperparameters then dictSet hem "param" m.hyperparameters else hem
    .ok (.builtin hem)

/-- The attribute names of a `Module` object: the instance attributes set in
`__init__` and the methods of the class.  No inherited (`object`) attribute
ends in `_func`. -/
def moduleAttrNames : List String :=
  ["type", "name", "url", "hyperparameters", "hyperparameters_list",
   "_check_fields", "basemodel_func", "hard_example_mining_func",
   "get_module_func", "_parse_config", "_parse_hyperparameters",
   "_parse_other_hyperparameters"]

/-- `Module.get_module_func`: `getattr(self, f"{module_type}_func")` — the
attribute of that name (a bound method, identified here by its name) if one
exists, otherwise an `AttributeError`. -/
def getModuleFunc (moduleType : String) : Except ModErr String :=
  if (moduleType ++ "_func") ∈ moduleAttrNames then .ok (moduleType ++ "_func")
  else .error (.noAttr (moduleType ++ "_func"))

/-! ### Measurement helpers used to state the properties -/

/-- First-wins choice on options (Python "the earlier lookup shadows the
later fallback"). -/
def oor {α : Type} : Option α → Option α → Option α
  | some x, _ => some x
  | none, y => y

/-- The non-reserved axes a `hyperparameters` configuration list declares,
read off the entries exactly the way the source does (`popitem`, then
`get("values")`), in declaration order. -/
def axesOf {α : Type} (es : List (Entry α)) : List (String × Option (List α)) :=
  es.filterMap fun e =>
    match popitem e with
    | some ((n, sp), _) =>
      if n = "other_hyperparameters" then none else some (n, dictGet? sp "values")
    | none => none

/-- The expansion loop at the value level. -/
def expandCombosV (base : Dict JVal) (combos : List (Dict JVal)) : List (Dict JVal) :=
  (expandCombos deepcopyVal base combos ()).1

/-- Key lookup through the declared override files, later files shadowing
earlier ones: the merged-base semantics the spec ascribes to
`other_hyperparameters`. -/
def mergedFileLookup {α : Type} (fs : α → FileRes α) : List α → String → Option α
  | [], _ => none
  | f :: rest, k =>
    oor (mergedFileLookup fs rest k)
      (match fs f with
       | .ok d => dictGet? d k
       | _ => none)

/-- Every file readable through `fs` from `files` yields a mapping with
unique keys (every Python dict does). -/
def filesNodup {α : Type} (fs : α → FileRes α) (files : List α) : Bool :=
  files.all fun f =>
    match fs f with
    | .ok d => decide ((d.map Prod.fst).Nodup)
    | _ => true

/-- Whether an `Except` result is a success. -/
def isOkB {ε α : Type} : Except ε α → Bool
  | .ok _ => true
  | .error _ => false

/-- The mutation `_parse_hyperparameters` applies to the configuration value
bound under `hyperparameters`: each axis entry loses its last item to
`popitem`. -/
def mutHp : CVal → CVal
  | .entries es => .entries (es.map List.dropLast)
  | v => v

/-- Whether an axis entry's popped item is the reserved
`other_hyperparameters` axis. -/
def entryReserved (e : Entry JVal) : Bool :=
  match popitem e with
  | some ((n, _), _) => n == "other_hyperparameters"
  | none => false

/-- Whether a configuration declares a reserved `other_hyperparameters` axis
anywhere (the only code path that touches the filesystem). -/
def hasReservedAxis (config : List (String × CVal)) : Bool :=
  config.any fun kv =>
    kv.1 == "hyperparameters" &&
      (match kv.2 with
       | .entries es => es.any entryReserved
       | _ => false)

/-- A file environment with no local files, for concrete configurations that
declare no `other_hyperparameters` axis. -/
def fsEmptyEnv : JVal → FileRes JVal := fun _ => .notLocal

/-! ### Dictionary lemmas -/

theorem dictUpdate_nil {α : Type} (d : Dict α) : dictUpdate d [] = d := rfl

theorem dictGet?_dictSet {α : Type} (d : Dict α) (k' k : String) (v : α) :
    dictGet? (dictSet d k' v) k = if k' = k then some v else dictGet? d k := by
  induction d with
  | nil => simp [dictSet, dictGet?]
  | cons p rest ih =>
    obtain ⟨a, b⟩ := p
    by_cases h1 : a = k'
    · subst h1
      by_cases h2 : a = k <;> simp [dictSet, dictGet?, h2]
    · have h1' : ¬ k' = a := fun hh => h1 hh.symm
      by_cases h2 : a = k
      · subst h2
        simp [dictSet, dictGet?, h1, h1']
      · simp [dictSet, dictGet?, h1, h2, ih]

theorem dictGet?_eq_none {α : Type} (d : Dict α) (k : String)
    (h : k ∉ d.map Prod.fst) : dictGet? d k = none := by
  induction d with
  | nil => rfl
  | cons p rest ih =>
    obtain ⟨a, b⟩ := p
    simp only [List.map_cons, List.mem_cons] at h
    push_neg at h
    have ha : ¬ a = k := fun hh => h.1 hh.symm
    simp [dictGet?, ha, ih h.2]

theorem dictGet?_dictUpdate {α : Type} (e : Dict α) :
    ∀ d : Dict α, (e.map Prod.fst).Nodup →
      ∀ k, dictGet? (dictUpdate d e) k = oor (dictGet? e k) (dictGet? d k) := by
  induction e with
  | nil => intro d _ k; cases hk : dictGet? d k <;> simp [dictUpdate, dictGet?, oor, hk]
  | cons p rest ih =>
    obtain ⟨k', v'⟩ := p
    intro d hnd k
    rw [List.map_cons] at hnd
    have hk' : k' ∉ rest.map Prod.fst := (List.nodup_cons.mp hnd).1
    have hnd' : (rest.map Prod.fst).Nodup := (List.nodup_cons.mp hnd).2
    simp only [dictUpdate]
    rw [ih _ hnd' k]
    by_cases h : k' = k
    · subst h
      rw [dictGet?_eq_none rest k' hk']
      simp [oor, dictGet?, dictGet?_dictSet]
    · simp [oor, dictGet?, dictGet?_dictSet, h]

/-! ### Expansion lemmas -/

theorem sum_map_const {α : Type} (l : List α) (c : ℕ) :
    (l.map (fun _ => c)).sum = l.length * c := by
  induction l with
  | nil => simp
  | cons a t ih => simp [ih, Nat.succ_mul, Nat.add_comm]

theorem getFullCombinations_length {α : Type} (axes : List (String × List α)) :
    (getFullCombinations axes).length = (axes.map (fun p => p.2.length)).prod := by
  induction axes with
  | nil => simp [getFullCombinations]
  | cons p rest ih =>
    obtain ⟨n, vs⟩ := p
    simp only [getFullCombinations, List.length_flatten, List.map_map, List.map_cons,
      List.prod_cons]
    have hm : (vs.map (List.length ∘ fun v =>
        (getFullCombinations rest).map (fun c => (n, v) :: c))) =
        vs.map (fun _ => (getFullCombinations rest).length) :=
      List.map_congr_left fun v _ => by simp [Function.comp]
    rw [hm, sum_map_const, ih]

theorem deepcopyDict_val (d : Dict JVal) (s : Unit) :
    deepcopyDict deepcopyVal d s = (d, s) := by
  induction d with
  | nil => rfl
  | cons p rest ih => simp [deepcopyDict, deepcopyVal, ih]

theorem expandCombos_length {α σ : Type} (dc : α → σ → α × σ) (base : Dict α)
    (combos : List (Dict α)) : ∀ s, (expandCombos dc base combos s).1.length = combos.length := by
  induction combos with
  | nil => intro s; rfl
  | cons c rest ih => intro s; simp [expandCombos, ih]

theorem expandCombosV_map (base : Dict JVal) (combos : List (Dict JVal)) :
    expandCombosV base combos = combos.map (fun c => dictUpdate base c) := by
  induction combos with
  | nil => rfl
  | cons c rest ih =>
    simp only [expandCombosV, expandCombos, deepcopyDict_val, List.map_cons]
    exact congrArg _ ih

/-! ### Collection-loop lemmas -/

theorem popitem_some {α : Type} {d : Dict α} {p : String × α} {r : Dict α}
    (h : popitem d = some (p, r)) : r = d.dropLast ∧ d.getLast? = some p := by
  unfold popitem at h
  cases hg : d.getLast? with
  | none => rw [hg] at h; exact absurd h (by simp)
  | some q =>
    rw [hg] at h
    simp only [Option.some.injEq, Prod.mk.injEq] at h
    exact ⟨h.2.symm, by rw [h.1]⟩

theorem collectAxes_ok {α : Type} (fs : α → FileRes α) (es : List (Entry α)) :
    ∀ base axes ea col, collectAxes fs es base axes ea = .ok col →
      col.axes = axes ++ axesOf es ∧
      col.entriesAfter = ea ++ es.map List.dropLast := by
  induction es with
  | nil =>
    intro b a e col h
    simp only [collectAxes] at h
    cases h
    simp [axesOf]
  | cons ent rest ih =>
    intro b a e col h
    cases hp : popitem ent with
    | none => simp [collectAxes, hp] at h
    | some pe =>
      obtain ⟨⟨n, sp⟩, eAfter⟩ := pe
      simp only [collectAxes, hp] at h
      have heA : eAfter = ent.dropLast := (popitem_some hp).1
      by_cases hres : n = "other_hyperparameters"
      · rw [if_pos hres] at h
        cases hv : dictGet? sp "values" with
        | none => simp [hv] at h
        | some files =>
          simp only [hv] at h
          cases ho : parseOtherHyperparameters fs files [] with
          | error err => simp [ho] at h
          | ok newBase =>
            simp only [ho] at h
            obtain ⟨h1, h2⟩ := ih newBase a (e ++ [eAfter]) col h
            constructor
            · rw [h1]; simp [axesOf, List.filterMap_cons, hp, hres]
            · rw [h2, heA]; simp
      · rw [if_neg hres] at h
        obtain ⟨h1, h2⟩ := ih b (a ++ [(n, dictGet? sp "values")]) (e ++ [eAfter]) col h
        constructor
        · rw [h1]; simp [axesOf, List.filterMap_cons, hp, hres]
        · rw [h2, heA]; simp

theorem resolveAxes_ok {α : Type} :
    ∀ (nvl : List (String × Option (List α))) axes, resolveAxes nvl = .ok axes →
      nvl = axes.map (fun p => (p.1, some p.2)) := by
  intro nvl
  induction nvl with
  | nil =>
    intro axes h
    simp only [resolveAxes] at h
    cases h
    rfl
  | cons p rest ih =>
    obtain ⟨n, vs?⟩ := p
    intro axes h
    cases vs? with
    | none => exact absurd h (by simp [resolveAxes])
    | some vs =>
      simp only [resolveAxes] at h
      cases hr : resolveAxes rest with
      | error err => rw [hr] at h; exact absurd h (by simp)
      | ok axes' =>
        rw [hr] at h
        cases h
        simp [ih axes' hr]

/-- Inversion of a successful `_parse_hyperparameters` run: the expanded list
is the full combinations of the collected axes, each merged over the base. -/
theorem parseHyperparameters_ok {fs : JVal → FileRes JVal} {es : List (Entry JVal)}
    {l : List (Dict JVal)} {ea : List (Entry JVal)}
    (h : parseHyperparameters fs es = .ok (l, ea)) :
    ∃ col axes, collectAxes fs es [] [] [] = .ok col ∧
      resolveAxes col.axes = .ok axes ∧
      l = (getFullCombinations axes).map (fun c => dictUpdate col.base c) ∧
      ea = col.entriesAfter := by
  unfold parseHyperparameters parseHyperparametersGen at h
  cases hc : collectAxes fs es [] [] [] with
  | error err => simp [hc] at h
  | ok col =>
    simp only [hc] at h
    cases hr : resolveAxes col.axes with
    | error err => simp [hr] at h
    | ok axes =>
      simp only [hr] at h
      simp only [Except.ok.injEq, Prod.mk.injEq] at h
      refine ⟨col, axes, rfl, hr, ?_, h.2.symm⟩
      rw [← h.1]
      have := expandCombosV_map col.base (getFullCombinations axes)
      simpa [expandCombosV] using this


theorem oor_none {α : Type} (x : Option α) : oor x none = x := by
  cases x <;> rfl

theorem parseOtherHyperparameters_lookup {α : Type} (fs : α → FileRes α) :
    ∀ (files : List α) (b base : Dict α),
      parseOtherHyperparameters fs files b = .ok base →
      filesNodup fs files = true →
      ∀ k, dictGet? base k = oor (mergedFileLookup fs files k) (dictGet? b k) := by
  intro files
  induction files with
  | nil =>
    intro b base h _ k
    simp only [parseOtherHyperparameters] at h
    cases h
    simp [mergedFileLookup, oor]
  | cons f rest ih =>
    intro b base h hnd k
    simp only [parseOtherHyperparameters] at h
    cases hf : fs f with
    | notLocal => simp [hf] at h
    | parseErr => simp [hf] at h
    | ok d =>
      simp only [hf] at h
      simp only [filesNodup, List.all_cons, Bool.and_eq_true, hf] at hnd
      have hdnd : (d.map Prod.fst).Nodup := of_decide_eq_true hnd.1
      have hnd1 : filesNodup fs rest = true := by
        simpa [filesNodup] using hnd.2
      rw [ih _ _ h hnd1 k]
      simp only [mergedFileLookup, hf]
      rw [dictGet?_dictUpdate d b hdnd k]
      cases mergedFileLookup fs rest k <;> simp [oor]

/-- C1: for N non-reserved axes of candidate-list sizes s1..sN, the expanded
hyperparameter list has exactly the product s1*...*sN elements (0 as soon as
one axis has no candidates, 1 when there is no axis); with no axis at all the
single element is the base mapping itself. -/
theorem expansion_length_law (fs : JVal → FileRes JVal) (es : List (Entry JVal))
    (l : List (Dict JVal)) (ea : List (Entry JVal))
    (h : parseHyperparameters fs es = .ok (l, ea)) :
    l.length = ((axesOf es).map (fun p => (p.2.getD []).length)).prod ∧
    (axesOf es = [] → ∀ col, collectAxes fs es [] [] [] = .ok col → l = [col.base]) := by
  obtain ⟨col, axes, hc, hr, hl, _⟩ := parseHyperparameters_ok h
  have haxes : col.axes = axesOf es := by
    simpa using (collectAxes_ok fs es [] [] [] col hc).1
  constructor
  · rw [hl, List.length_map, getFullCombinations_length]
    have hres := resolveAxes_ok col.axes axes hr
    rw [← haxes, hres, List.map_map]
    congr 1
  · intro h0 col0 hc0
    rw [hc] at hc0
    cases hc0
    have hax0 : col.axes = [] := by rw [haxes, h0]
    rw [hax0] at hr
    have hax : axes = [] := by
      have : Except.ok (ε := ModErr) ([] : List (String × List JVal)) = .ok axes := hr
      simpa using this
    rw [hl, hax]
    simp [getFullCombinations, dictUpdate]

/-- Concrete instance of C1: axes of sizes 2 and 3 expand to 6 combinations. -/
def esW1 : List (Entry JVal) :=
  [[("x", [("values", [.vint 1, .vint 2])])],
   [("y", [("values", [.vint 10, .vint 20, .vint 30])])]]

/-- The expanded list the source produces for `esW1`. -/
def lW1 : List (Dict JVal) :=
  [[("x", .vint 1), ("y", .vint 10)], [("x", .vint 1), ("y", .vint 20)],
   [("x", .vint 1), ("y", .vint 30)], [("x", .vint 2), ("y", .vint 10)],
   [("x", .vint 2), ("y", .vint 20)], [("x", .vint 2), ("y", .vint 30)]]

theorem expansion_length_law_witness :
    lW1.length = ((axesOf esW1).map (fun p => (p.2.getD []).length)).prod ∧
    (axesOf esW1 = [] → ∀ col, collectAxes fsEmptyEnv esW1 [] [] [] = .ok col →
      lW1 = [col.base]) :=
  expansion_length_law fsEmptyEnv esW1 lW1 [[], []] (by rfl)

/-- C2: the base mapping is the union of the `other_hyperparameters` file
mappings merged in declaration order, later files overwriting earlier ones on
key conflict; each expanded element is the base mapping updated with its
combination, and combination values take precedence over base values. -/
theorem base_merge_precedence :
    (∀ (fs : JVal → FileRes JVal) (files : List JVal) (base : Dict JVal),
        parseOtherHyperparameters fs files [] = .ok base →
        filesNodup fs files = true →
        ∀ k, dictGet? base k = mergedFileLookup fs files k) ∧
    (∀ (base : Dict JVal) (combos : List (Dict JVal)),
        expandCombosV base combos = combos.map (fun c => dictUpdate base c)) ∧
    (∀ (d e : Dict JVal), (e.map Prod.fst).Nodup →
        ∀ k, dictGet? (dictUpdate d e) k = oor (dictGet? e k) (dictGet? d k)) := by
  refine ⟨?_, expandCombosV_map, fun d e hnd k => dictGet?_dictUpdate e d hnd k⟩
  intro fs files base h hnd k
  have := parseOtherHyperparameters_lookup fs files [] base h hnd k
  simpa [dictGet?, oor_none] using this

/-- The file environment of the spec's base-merge example: `file1` holds
`{a:1, b:2}` and `file2` holds `{b:3, c:4}`. -/
def fsW2 : JVal → FileRes JVal := fun f =>
  if f = .vstr "file1" then .ok [("a", .vint 1), ("b", .vint 2)]
  else if f = .vstr "file2" then .ok [("b", .vint 3), ("c", .vint 4)]
  else .notLocal

theorem base_merge_precedence_witness :
    dictGet? [("a", JVal.vint 1), ("b", JVal.vint 3), ("c", JVal.vint 4)] "b" =
      mergedFileLookup fsW2 [JVal.vstr "file1", JVal.vstr "file2"] "b" ∧
    expandCombosV [("a", JVal.vint 1)] [[("b", JVal.vint 2)]] =
      [[("b", JVal.vint 2)]].map
        (fun c => dictUpdate [("a", JVal.vint 1)] c) ∧
    dictGet? (dictUpdate [("a", JVal.vint 1), ("b", JVal.vint 3), ("c", JVal.vint 4)]
        [("b", JVal.vint 9)]) "b" =
      oor (dictGet? [("b", JVal.vint 9)] "b")
        (dictGet? [("a", JVal.vint 1), ("b", JVal.vint 3), ("c", JVal.vint 4)] "b") :=
  ⟨base_merge_precedence.1 fsW2 [JVal.vstr "file1", JVal.vstr "file2"]
      [("a", JVal.vint 1), ("b", JVal.vint 3), ("c", JVal.vint 4)] (by rfl) (by decide) "b",
   base_merge_precedence.2.1 [("a", JVal.vint 1)] [[("b", JVal.vint 2)]],
   base_merge_precedence.2.2 [("a", JVal.vint 1), ("b", JVal.vint 3), ("c", JVal.vint 4)]
      [("b", JVal.vint 9)] (by decide) "b"⟩

/-! ### Configuration-loop lemmas -/

theorem setField_preserves_hp (m : PyModule) (k : String) (v : CVal)
    (h1 : k ≠ "hyperparameters") (h2 : k ≠ "hyperparameters_list") :
    (setField m k v).hyperparameters = m.hyperparameters ∧
    (setField m k v).hyperparameters_list = m.hyperparameters_list := by
  by_cases a : k = "type"
  · simp [setField, a]
  · by_cases b : k = "name"
    · simp [setField, a, b]
    · by_cases c : k = "url"
      · simp [setField, a, b, c]
      · simp [setField, a, b, c, h1, h2]

theorem parseConfigLoop_fields {fs : JVal → FileRes JVal} :
    ∀ (cfg : List (String × CVal)) (m0 m : PyModule) (ca : List (String × CVal)),
      parseConfigLoop fs m0 cfg = .ok (m, ca) →
      "hyperparameters" ∉ cfg.map Prod.fst →
      "hyperparameters_list" ∉ cfg.map Prod.fst →
      m.hyperparameters = m0.hyperparameters ∧
      m.hyperparameters_list = m0.hyperparameters_list := by
  intro cfg
  induction cfg with
  | nil =>
    intro m0 m ca h _ _
    simp only [parseConfigLoop] at h
    cases h
    exact ⟨rfl, rfl⟩
  | cons kv rest ih =>
    obtain ⟨k, v⟩ := kv
    intro m0 m ca h h1 h2
    simp only [List.map_cons, List.mem_cons] at h1 h2
    push_neg at h1 h2
    simp only [parseConfigLoop] at h
    rw [if_neg (fun hh => h1.1 hh.symm)] at h
    cases hrec : parseConfigLoop fs (setField m0 k v) rest with
    | error err => simp [hrec] at h
    | ok p =>
      obtain ⟨mf, restAfter⟩ := p
      simp only [hrec, Except.ok.injEq, Prod.mk.injEq] at h
      obtain ⟨hm, _⟩ := h
      have hrest := ih (setField m0 k v) mf restAfter hrec h1.2 h2.2
      have hsf := setField_preserves_hp m0 k v (fun hh => h1.1 hh.symm) (fun hh => h2.1 hh.symm)
      rw [← hm]
      exact ⟨hrest.1.trans hsf.1, hrest.2.trans hsf.2⟩

theorem parseConfigLoop_append {fs : JVal → FileRes JVal} :
    ∀ (l1 l2 : List (String × CVal)) (m0 m : PyModule) (ca : List (String × CVal)),
      parseConfigLoop fs m0 (l1 ++ l2) = .ok (m, ca) →
      ∃ m1 ca1 ca2, parseConfigLoop fs m0 l1 = .ok (m1, ca1) ∧
        parseConfigLoop fs m1 l2 = .ok (m, ca2) ∧ ca = ca1 ++ ca2 := by
  intro l1
  induction l1 with
  | nil => intro l2 m0 m ca h; exact ⟨m0, [], ca, rfl, h, rfl⟩
  | cons kv rest ih =>
    obtain ⟨k, v⟩ := kv
    intro l2 m0 m ca h
    simp only [List.cons_append, parseConfigLoop, List.append_eq] at h
    by_cases hk : k = "hyperparameters"
    · rw [if_pos hk] at h
      cases v with
      | jval w => simp at h
      | dict d => simp at h
      | dicts ds => simp at h
      | entries es =>
        cases hph : parseHyperparameters fs es with
        | error err => simp [hph] at h
        | ok p =>
          obtain ⟨l, ea⟩ := p
          simp only [hph] at h
          cases hrec : parseConfigLoop fs
              (setField { m0 with hyperparameters_list := .dicts l } k (CVal.entries ea))
              (rest ++ l2) with
          | error e => simp [hrec] at h
          | ok q =>
            obtain ⟨mf, rla⟩ := q
            simp only [hrec, Except.ok.injEq, Prod.mk.injEq] at h
            obtain ⟨hm, hca⟩ := h
            obtain ⟨m1, ca1, ca2, hA, hB, hC⟩ := ih l2 _ mf rla hrec
            refine ⟨m1, (k, CVal.entries ea) :: ca1, ca2, ?_, ?_, ?_⟩
            · simp only [parseConfigLoop, if_pos hk, hph, hA]
            · rw [← hm]; exact hB
            · rw [← hca, hC]; simp
    · rw [if_neg hk] at h
      cases hrec : parseConfigLoop fs (setField m0 k v) (rest ++ l2) with
      | error e => simp [hrec] at h
      | ok q =>
        obtain ⟨mf, rla⟩ := q
        simp only [hrec, Except.ok.injEq, Prod.mk.injEq] at h
        obtain ⟨hm, hca⟩ := h
        obtain ⟨m1, ca1, ca2, hA, hB, hC⟩ := ih l2 _ mf rla hrec
        refine ⟨m1, (k, v) :: ca1, ca2, ?_, ?_, ?_⟩
        · simp only [parseConfigLoop, if_neg hk, hA]
        · rw [← hm]; exact hB
        · rw [← hca, hC]; simp

theorem moduleInit_ok {fs : JVal → FileRes JVal} {config : List (String × CVal)}
    {m : PyModule} {ca : List (String × CVal)}
    (h : moduleInit fs config = .ok (m, ca)) :
    parseConfigLoop fs initModule config = .ok (m, ca) ∧ checkFields m = .ok () := by
  unfold moduleInit at h
  cases hl : parseConfigLoop fs initModule config with
  | error e => simp [hl] at h
  | ok p =>
    obtain ⟨m', ca'⟩ := p
    simp only [hl] at h
    cases hc : checkFields m' with
    | error e => simp [hc] at h
    | ok u =>
      simp only [hc, Except.ok.injEq, Prod.mk.injEq] at h
      obtain ⟨h1, h2⟩ := h
      subst h1; subst h2
      exact ⟨rfl, hc⟩

/-- C3 counterexample configuration: valid fields, no `hyperparameters` key. -/
def cfgC3 : List (String × CVal) :=
  [("type", .jval (.vstr "basemodel")), ("name", .jval (.vstr "m")), ("url", .jval (.vstr ""))]

/-- The module `cfgC3` constructs. -/
def mC3 : PyModule :=
  ⟨.jval (.vstr "basemodel"), .jval (.vstr "m"), .jval (.vstr ""), .jval .vnone, .jval .vnone⟩

/-- C3 counterexample: a configuration that declares no hyperparameters at
all passes construction with `hyperparameters_list` still bound to `None` —
not to a single-element sequence — so the descriptor's hyperparameter-set
list can be null. -/
theorem hyperparameter_sets_null_cex :
    moduleInit fsEmptyEnv cfgC3 = .ok (mC3, cfgC3) ∧
    mC3.hyperparameters_list = .jval .vnone :=
  ⟨rfl, rfl⟩

/-- C3 (amended): `hyperparameters_list` stays `None` when the configuration
has no `hyperparameters` key; a `hyperparameters` key whose axis list is
empty yields the single-element sequence containing the empty base mapping. -/
theorem hyperparameter_sets_amended :
    (∀ (fs : JVal → FileRes JVal) (config : List (String × CVal)) (m : PyModule)
        (ca : List (String × CVal)),
        "hyperparameters" ∉ config.map Prod.fst →
        "hyperparameters_list" ∉ config.map Prod.fst →
        moduleInit fs config = .ok (m, ca) →
        m.hyperparameters_list = .jval .vnone) ∧
    (∀ (fs : JVal → FileRes JVal) (config : List (String × CVal)) (m : PyModule)
        (ca : List (String × CVal)),
        (config.map Prod.fst).Nodup →
        ("hyperparameters", CVal.entries []) ∈ config →
        "hyperparameters_list" ∉ config.map Prod.fst →
        moduleInit fs config = .ok (m, ca) →
        m.hyperparameters_list = .dicts [[]]) := by
  constructor
  · intro fs config m ca h1 h2 h
    obtain ⟨hl, _⟩ := moduleInit_ok h
    exact (parseConfigLoop_fields config initModule m ca hl h1 h2).2
  · intro fs config m ca hnd hmem hnl h
    obtain ⟨hl, _⟩ := moduleInit_ok h
    obtain ⟨pre, post, hcfg⟩ := List.append_of_mem hmem
    subst hcfg
    obtain ⟨m1, ca1, ca2, hA, hB, hC⟩ := parseConfigLoop_append pre _ initModule m ca hl
    have hB' : parseConfigLoop fs m1
        ([("hyperparameters", CVal.entries [])] ++ post) = .ok (m, ca2) := hB
    obtain ⟨m2, cb1, cb2, hBA, hBB, hCB⟩ :=
      parseConfigLoop_append [("hyperparameters", CVal.entries [])] post m1 m ca2 hB'
    have hstep : parseConfigLoop fs m1 [("hyperparameters", CVal.entries [])] =
        .ok (setField { m1 with hyperparameters_list := .dicts [[]] }
               "hyperparameters" (CVal.entries []),
             [("hyperparameters", CVal.entries [])]) := rfl
    rw [hstep] at hBA
    simp only [Except.ok.injEq, Prod.mk.injEq] at hBA
    obtain ⟨hm2, _⟩ := hBA
    rw [List.map_append, List.map_cons] at hnd
    have hpost1 : "hyperparameters" ∉ post.map Prod.fst :=
      (List.nodup_cons.mp hnd.of_append_right).1
    have hpost2 : "hyperparameters_list" ∉ post.map Prod.fst := by
      simp only [List.map_append, List.map_cons, List.mem_append, List.mem_cons] at hnl
      push_neg at hnl
      exact hnl.2.2
    have hfin := (parseConfigLoop_fields post m2 m cb2 hBB hpost1 hpost2).2
    rw [hfin, ← hm2]
    rfl

/-- C3 witness configuration: `hyperparameters` present with an empty axis
list. -/
def cfgC3b : List (String × CVal) :=
  [("type", .jval (.vstr "basemodel")), ("name", .jval (.vstr "m")),
   ("url", .jval (.vstr "")), ("hyperparameters", .entries [])]

/-- The module `cfgC3b` constructs. -/
def mC3b : PyModule :=
  ⟨.jval (.vstr "basemodel"), .jval (.vstr "m"), .jval (.vstr ""),
   .entries [], .dicts [[]]⟩

theorem hyperparameter_sets_amended_witness :
    mC3.hyperparameters_list = .jval .vnone ∧
    mC3b.hyperparameters_list = .dicts [[]] :=
  ⟨hyperparameter_sets_amended.1 fsEmptyEnv cfgC3 mC3 cfgC3 (by decide) (by decide) rfl,
   hyperparameter_sets_amended.2 fsEmptyEnv cfgC3b mC3b cfgC3b (by decide) (by decide)
     (by decide) rfl⟩

/-- C4: whenever field binding succeeds and the bound `type` is the empty
string or a string outside the `ModuleType` enumeration, construction fails
with the error carrying the invalid value and the accepted enumeration. -/
theorem invalid_type_rejected (fs : JVal → FileRes JVal) (config : List (String × CVal))
    (m : PyModule) (ca : List (String × CVal)) (s : String)
    (hloop : parseConfigLoop fs initModule config = .ok (m, ca))
    (htype : m.type = .jval (.vstr s))
    (hs : s = "" ∨ s ∉ moduleTypes) :
    moduleInit fs config = .error (.typeNotSupported (.jval (.vstr s)) moduleTypes) := by
  have hsno : s ∉ moduleTypes := by
    rcases hs with h | h
    · rw [h]; decide
    · exact h
  simp only [moduleTypes, List.mem_cons, List.mem_singleton] at hsno
  push_neg at hsno
  have hcf : checkFields m = .error (.typeNotSupported (.jval (.vstr s)) moduleTypes) := by
    simp [checkFields, htype, isStr, cvalEqStr, moduleTypes, hsno.1, hsno.2]
  simp only [moduleInit, hloop, hcf]

/-- C4 witness configuration: a `type` outside the enumeration. -/
def cfgC4 : List (String × CVal) := [("type", .jval (.vstr "lifelong_learning"))]

/-- The module state bound from `cfgC4` before validation. -/
def mC4 : PyModule :=
  ⟨.jval (.vstr "lifelong_learning"), .jval (.vstr ""), .jval (.vstr ""),
   .jval .vnone, .jval .vnone⟩

theorem invalid_type_rejected_witness :
    moduleInit fsEmptyEnv cfgC4 =
      .error (.typeNotSupported (.jval (.vstr "lifelong_learning")) moduleTypes) :=
  invalid_type_rejected fsEmptyEnv cfgC4 mC4 cfgC4 "lifelong_learning" rfl rfl
    (Or.inr (by decide))

/-- C5 failing input: an empty-string `name` (and, in the second component, a
non-string `name`). -/
def cfgC5a : List (String × CVal) :=
  [("type", .jval (.vstr "basemodel")), ("name", .jval (.vstr "")), ("url", .jval (.vstr ""))]

/-- The module `cfgC5a` constructs. -/
def mC5a : PyModule :=
  ⟨.jval (.vstr "basemodel"), .jval (.vstr ""), .jval (.vstr ""), .jval .vnone, .jval .vnone⟩

/-- A configuration whose `name` is the integer `5`. -/
def cfgC5b : List (String × CVal) :=
  [("type", .jval (.vstr "basemodel")), ("name", .jval (.vint 5)), ("url", .jval (.vstr ""))]

/-- The module `cfgC5b` constructs. -/
def mC5b : PyModule :=
  ⟨.jval (.vstr "basemodel"), .jval (.vint 5), .jval (.vstr ""), .jval .vnone, .jval .vnone⟩

/-- C5: the code accepts an empty-string `name` and even a non-string truthy
`name` — the guard `not self.name and not isinstance(self.name, str)` only
fires for falsy non-strings, so construction succeeds where the claim (and
the error message's own wording) requires rejection. -/
theorem name_validation_gap :
    moduleInit fsEmptyEnv cfgC5a = .ok (mC5a, cfgC5a) ∧
    moduleInit fsEmptyEnv cfgC5b = .ok (mC5b, cfgC5b) :=
  ⟨rfl, rfl⟩

/-- C6: with an empty `url` the mining capability never consults the loader
and resolves to the built-in descriptor: exactly `{method: name}` when the
hyperparameter mapping is empty, exactly `{method: name, param: mapping}`
when it is not, the `param` key present iff the mapping is non-empty. -/
theorem mining_builtin_fallback (m : PyModule) (lo lo' : Bool)
    (hurl : m.url = .jval (.vstr "")) :
    hardExampleMiningFunc lo m = hardExampleMiningFunc lo' m ∧
    (∀ d, m.hyperparameters = .dict d →
      hardExampleMiningFunc lo m = .ok (.builtin
        (if d.isEmpty then [("method", m.name)]
         else [("method", m.name), ("param", CVal.dict d)]))) ∧
    (∀ d r, m.hyperparameters = .dict d →
      hardExampleMiningFunc lo m = .ok (.builtin r) →
      ((dictGet? r "param").isSome ↔ d ≠ [])) := by
  refine ⟨?_, ?_, ?_⟩
  · simp [hardExampleMiningFunc, hurl, truthy]
  · intro d hd
    cases d with
    | nil => simp [hardExampleMiningFunc, hurl, hd, truthy]
    | cons p rest => simp [hardExampleMiningFunc, hurl, hd, truthy, dictSet]
  · intro d r hd hr
    cases d with
    | nil =>
      simp [hardExampleMiningFunc, hurl, hd, truthy] at hr
      simp [← hr, dictGet?]
    | cons p rest =>
      simp [hardExampleMiningFunc, hurl, hd, truthy, dictSet] at hr
      simp [← hr, dictGet?]

/-- A mining-capability module with empty `url` and hyperparameter mapping
`{threshold: 1}`. -/
def mC6a : PyModule :=
  ⟨.jval (.vstr "hard_example_mining"), .jval (.vstr "ExampleMiner"),
   .jval (.vstr ""), .dict [("threshold", .vint 1)], .jval .vnone⟩

/-- A mining-capability module with empty `url` and empty hyperparameters. -/
def mC6b : PyModule :=
  ⟨.jval (.vstr "hard_example_mining"), .jval (.vstr "ExampleMiner"),
   .jval (.vstr ""), .dict [], .jval .vnone⟩

theorem mining_builtin_fallback_witness :
    hardExampleMiningFunc true mC6a = hardExampleMiningFunc false mC6a ∧
    hardExampleMiningFunc true mC6a = .ok (.builtin
      [("method", CVal.jval (.vstr "ExampleMiner")),
       ("param", CVal.dict [("threshold", JVal.vint 1)])]) ∧
    hardExampleMiningFunc true mC6b = .ok (.builtin
      [("method", CVal.jval (.vstr "ExampleMiner"))]) :=
  ⟨(mining_builtin_fallback mC6a true false rfl).1,
   (mining_builtin_fallback mC6a true false rfl).2.1 [("threshold", .vint 1)] rfl,
   (mining_builtin_fallback mC6b true false rfl).2.1 [] rfl⟩

/-! ### String-suffix reasoning for the attribute lookup -/

theorem func_suffix_short {t lit : String} (h : t ++ "_func" = lit)
    (hn : lit.data.length < 5) : False := by
  have hd : t.data ++ ("_func" : String).data = lit.data := congrArg String.data h
  have hc := congrArg List.length hd
  simp only [List.length_append] at hc
  have l5 : (("_func" : String).data).length = 5 := rfl
  rw [l5] at hc
  omega

theorem func_suffix_drop {t lit : String} (n : Nat) (h : t ++ "_func" = lit)
    (hn : lit.data.length = n + 5) :
    lit.data.drop n = ("_func" : String).data := by
  have hd : lit.data = t.data ++ ("_func" : String).data := (congrArg String.data h).symm
  have hlen : t.data.length = n := by
    have hc := congrArg List.length hd
    simp only [List.length_append] at hc
    have l5 : (("_func" : String).data).length = 5 := rfl
    rw [l5, hn] at hc
    omega
  rw [hd, ← hlen, List.drop_left]

theorem func_suffix_eq {t lit pre : String} (h : t ++ "_func" = lit)
    (hsplit : lit.data = pre.data ++ ("_func" : String).data) : t = pre := by
  have hd : t.data ++ ("_func" : String).data = lit.data := congrArg String.data h
  rw [hsplit] at hd
  have hlen : t.data.length = pre.data.length := by
    have hc := congrArg List.length hd
    simp only [List.length_append] at hc
    omega
  apply String.ext
  have h1 : (t.data ++ ("_func" : String).data).take t.data.length = t.data :=
    List.take_left t.data _
  have h2 : (pre.data ++ ("_func" : String).data).take pre.data.length = pre.data :=
    List.take_left pre.data _
  rw [← h1, hd, hlen, h2]

/-- The only attribute names of `Module` ending in `_func` are the two
resolution methods and the accessor itself. -/
theorem funcName_mem_cases (t : String)
    (h : (t ++ "_func") ∈ moduleAttrNames) :
    t = "basemodel" ∨ t = "hard_example_mining" ∨ t = "get_module" := by
  simp only [moduleAttrNames, List.mem_cons, List.not_mem_nil, or_false] at h
  rcases h with h|h|h|h|h|h|h|h|h|h|h|h
  · exact (func_suffix_short h (by decide)).elim
  · exact (func_suffix_short h (by decide)).elim
  · exact (func_suffix_short h (by decide)).elim
  · exact absurd (func_suffix_drop 10 h rfl) (by decide)
  · exact absurd (func_suffix_drop 15 h rfl) (by decide)
  · exact absurd (func_suffix_drop 8 h rfl) (by decide)
  · exact Or.inl (func_suffix_eq h (by decide))
  · exact Or.inr (Or.inl (func_suffix_eq h (by decide)))
  · exact Or.inr (Or.inr (func_suffix_eq h (by decide)))
  · exact absurd (func_suffix_drop 8 h rfl) (by decide)
  · exact absurd (func_suffix_drop 17 h rfl) (by decide)
  · exact absurd (func_suffix_drop 23 h rfl) (by decide)

/-- C8 counterexample: `"get_module"` names no resolution operation (it is
not a capability type), yet `get_module_func("get_module")` returns a
callable — the accessor itself — instead of failing. -/
theorem get_module_accessor_cex :
    "get_module" ∉ moduleTypes ∧
    getModuleFunc "get_module" = .ok "get_module_func" :=
  ⟨by decide, rfl⟩

/-- C8 (amended): for a capability type in the enumeration the accessor
returns the matching resolution method without raising; for any other name —
except `"get_module"`, whose lookup hits the accessor itself — it fails with
an `AttributeError` naming the missing attribute. -/
theorem get_module_accessor_amended (t : String) :
    (t ∈ moduleTypes → getModuleFunc t = .ok (t ++ "_func")) ∧
    (t ∉ moduleTypes → t ≠ "get_module" →
      getModuleFunc t = .error (.noAttr (t ++ "_func"))) := by
  constructor
  · intro ht
    have hmem : (t ++ "_func") ∈ moduleAttrNames := by
      simp only [moduleTypes, List.mem_cons, List.not_mem_nil, or_false] at ht
      rcases ht with h | h <;> subst h <;> decide
    simp [getModuleFunc, hmem]
  · intro ht hg
    have hmem : (t ++ "_func") ∉ moduleAttrNames := by
      intro hmem
      rcases funcName_mem_cases t hmem with h | h | h
      · exact ht (h ▸ (by decide))
      · exact ht (h ▸ (by decide))
      · exact hg h
    simp [getModuleFunc, hmem]

theorem get_module_accessor_amended_witness :
    getModuleFunc "basemodel" = .ok ("basemodel" ++ "_func") ∧
    getModuleFunc "task_definition" = .error (.noAttr ("task_definition" ++ "_func")) :=
  ⟨(get_module_accessor_amended "basemodel").1 (by decide),
   (get_module_accessor_amended "task_definition").2 (by decide) (by decide)⟩

/-! ### Mutation and filesystem-independence of construction -/

theorem parseHyperparameters_ea {fs : JVal → FileRes JVal} {es : List (Entry JVal)}
    {l : List (Dict JVal)} {ea : List (Entry JVal)}
    (h : parseHyperparameters fs es = .ok (l, ea)) :
    ea = es.map List.dropLast := by
  obtain ⟨col, _, hc, _, _, hea⟩ := parseHyperparameters_ok h
  rw [hea]
  simpa using (collectAxes_ok fs es [] [] [] col hc).2

theorem parseConfigLoop_after {fs : JVal → FileRes JVal} :
    ∀ (cfg : List (String × CVal)) (m0 m : PyModule) (ca : List (String × CVal)),
      parseConfigLoop fs m0 cfg = .ok (m, ca) →
      ca = cfg.map (fun kv =>
        if kv.1 = "hyperparameters" then (kv.1, mutHp kv.2) else kv) := by
  intro cfg
  induction cfg with
  | nil =>
    intro m0 m ca h
    simp only [parseConfigLoop] at h
    cases h
    rfl
  | cons kv rest ih =>
    obtain ⟨k, v⟩ := kv
    intro m0 m ca h
    simp only [parseConfigLoop] at h
    by_cases hk : k = "hyperparameters"
    · rw [if_pos hk] at h
      cases v with
      | jval w => simp at h
      | dict d => simp at h
      | dicts ds => simp at h
      | entries es =>
        cases hph : parseHyperparameters fs es with
        | error err => simp [hph] at h
        | ok p =>
          obtain ⟨l, ea⟩ := p
          simp only [hph] at h
          cases hrec : parseConfigLoop fs
              (setField { m0 with hyperparameters_list := .dicts l } k (CVal.entries ea))
              rest with
          | error e => simp [hrec] at h
          | ok q =>
            obtain ⟨mf, rla⟩ := q
            simp only [hrec, Except.ok.injEq, Prod.mk.injEq] at h
            obtain ⟨_, hca⟩ := h
            rw [← hca]
            have hea := parseHyperparameters_ea hph
            simp [List.map_cons, hk, mutHp, hea, ih _ mf rla hrec]
    · rw [if_neg hk] at h
      cases hrec : parseConfigLoop fs (setField m0 k v) rest with
      | error e => simp [hrec] at h
      | ok q =>
        obtain ⟨mf, rla⟩ := q
        simp only [hrec, Except.ok.injEq, Prod.mk.injEq] at h
        obtain ⟨_, hca⟩ := h
        rw [← hca]
        simp [List.map_cons, hk, ih _ mf rla hrec]

theorem collectAxes_fs_inv (fs fs' : JVal → FileRes JVal) :
    ∀ (es : List (Entry JVal)), (es.all fun e => !(entryReserved e)) = true →
      ∀ base axes ea, collectAxes fs es base axes ea = collectAxes fs' es base axes ea := by
  intro es
  induction es with
  | nil => intro _ b a e; rfl
  | cons ent rest ih =>
    intro hall b a e
    simp only [List.all_cons, Bool.and_eq_true] at hall
    obtain ⟨h1, h2⟩ := hall
    cases hp : popitem ent with
    | none => simp [collectAxes, hp]
    | some pe =>
      obtain ⟨⟨n, sp⟩, eAfter⟩ := pe
      have hn : ¬ (n = "other_hyperparameters") := by
        simp [entryReserved, hp] at h1
        exact h1
      simp only [collectAxes, hp, if_neg hn]
      exact ih h2 _ _ _

theorem parseHyperparameters_fs_inv (fs fs' : JVal → FileRes JVal)
    (es : List (Entry JVal)) (h : (es.all fun e => !(entryReserved e)) = true) :
    parseHyperparameters fs es = parseHyperparameters fs' es := by
  unfold parseHyperparameters parseHyperparametersGen
  rw [collectAxes_fs_inv fs fs' es h [] [] []]

theorem parseConfigLoop_fs_inv_aux (fs fs' : JVal → FileRes JVal) :
    ∀ (cfg : List (String × CVal)), hasReservedAxis cfg = false →
      ∀ m0 r, parseConfigLoop fs m0 cfg = r → parseConfigLoop fs' m0 cfg = r := by
  intro cfg
  induction cfg with
  | nil => intro _ m0 r h; exact h
  | cons kv rest ih =>
    obtain ⟨k, v⟩ := kv
    intro hres m0 r h
    simp only [hasReservedAxis, List.any_cons, Bool.or_eq_false_iff] at hres
    obtain ⟨hh, ht⟩ := hres
    have htail : hasReservedAxis rest = false := ht
    simp only [parseConfigLoop] at h ⊢
    by_cases hk : k = "hyperparameters"
    · rw [if_pos hk] at h ⊢
      cases v with
      | jval w => exact h
      | dict d => exact h
      | dicts ds => exact h
      | entries es =>
        have hes : (es.all fun e => !(entryReserved e)) = true := by
          rw [hk] at hh
          simp only [beq_self_eq_true, Bool.true_and] at hh
          rw [List.all_eq_true]
          intro e he
          rw [List.any_eq_false] at hh
          simp [hh e he]
        have hrw := parseHyperparameters_fs_inv fs fs' es hes
        cases hph : parseHyperparameters fs es with
        | error err =>
          have hph2 : parseHyperparameters fs' es = .error err := by rw [← hrw]; exact hph
          simp only [hph] at h
          simp only [hph2]
          exact h
        | ok p =>
          obtain ⟨l, ea⟩ := p
          have hph2 : parseHyperparameters fs' es = .ok (l, ea) := by rw [← hrw]; exact hph
          simp only [hph] at h
          simp only [hph2]
          have hloop : parseConfigLoop fs'
              (setField { m0 with hyperparameters_list := .dicts l } k (CVal.entries ea)) rest =
              parseConfigLoop fs
                (setField { m0 with hyperparameters_list := .dicts l } k (CVal.entries ea)) rest :=
            ih htail _ _ rfl
          rw [hloop]
          exact h
    · rw [if_neg hk] at h ⊢
      have hloop : parseConfigLoop fs' (setField m0 k v) rest =
          parseConfigLoop fs (setField m0 k v) rest := ih htail _ _ rfl
      rw [hloop]
      exact h

theorem moduleInit_fs_inv (fs fs' : JVal → FileRes JVal)
    (config : List (String × CVal)) (h : hasReservedAxis config = false) :
    moduleInit fs config = moduleInit fs' config := by
  unfold moduleInit
  rw [parseConfigLoop_fs_inv_aux fs fs' config h initModule _ rfl]

/-- C7 counterexample configuration: one declared axis. -/
def cfgC7 : List (String × CVal) :=
  [("type", .jval (.vstr "basemodel")), ("name", .jval (.vstr "m")),
   ("url", .jval (.vstr "")),
   ("hyperparameters", .entries [[("lr", [("values", [.vint 1, .vint 2])])]])]

/-- The module `cfgC7` constructs. -/
def mC7 : PyModule :=
  ⟨.jval (.vstr "basemodel"), .jval (.vstr "m"), .jval (.vstr ""),
   .entries [[]], .dicts [[("lr", .vint 1)], [("lr", .vint 2)]]⟩

/-- The caller's configuration after constructing from `cfgC7`: the axis
entry has been emptied. -/
def caC7 : List (String × CVal) :=
  [("type", .jval (.vstr "basemodel")), ("name", .jval (.vstr "m")),
   ("url", .jval (.vstr "")), ("hyperparameters", .entries [[]])]

/-- C7 counterexample: construction succeeds but hands back a configuration
different from the one passed in — `popitem` emptied the hyperparameter axis
entry inside the caller's mapping, so construction is not free of side
effects on the caller's configuration. -/
theorem construction_mutation_cex :
    moduleInit fsEmptyEnv cfgC7 = .ok (mC7, caC7) ∧ caC7 ≠ cfgC7 :=
  ⟨rfl, by decide⟩

/-- C7 (amended): construction's only effect on the caller's configuration is
that each hyperparameter axis entry loses its last item to `popitem`
(single-key entries become empty); everything else is unchanged, and when no
`other_hyperparameters` axis is declared the construction is independent of
the filesystem (validation itself never touches it). -/
theorem construction_mutation_amended (fs fs' : JVal → FileRes JVal)
    (config : List (String × CVal)) (m : PyModule) (ca : List (String × CVal))
    (h : moduleInit fs config = .ok (m, ca)) :
    ca = config.map (fun kv =>
      if kv.1 = "hyperparameters" then (kv.1, mutHp kv.2) else kv) ∧
    (hasReservedAxis config = false → moduleInit fs config = moduleInit fs' config) := by
  constructor
  · obtain ⟨hl, _⟩ := moduleInit_ok h
    exact parseConfigLoop_after config initModule m ca hl
  · intro hres
    exact moduleInit_fs_inv fs fs' config hres

/-- A second file environment, used to witness filesystem-independence. -/
def fsAltEnv : JVal → FileRes JVal := fun _ => .parseErr

theorem construction_mutation_amended_witness :
    caC7 = cfgC7.map (fun kv =>
      if kv.1 = "hyperparameters" then (kv.1, mutHp kv.2) else kv) ∧
    (hasReservedAxis cfgC7 = false →
      moduleInit fsEmptyEnv cfgC7 = moduleInit fsAltEnv cfgC7) :=
  construction_mutation_amended fsEmptyEnv fsAltEnv cfgC7 mC7 caC7 rfl

/-- C10: after construction the `hyperparameters` attribute is bound verbatim
to the raw configuration value — the axis-entry list as mutated by parsing —
not to any expanded combination; the mining fallback passes exactly this
attribute as the `param` value, and `basemodel_func` always fails on it
(`**kwargs` needs a mapping), so a caller must overwrite the attribute with
one expanded element before resolving. -/
theorem hyperparameters_attribute_raw (fs : JVal → FileRes JVal)
    (pre post : List (String × CVal)) (es : List (Entry JVal))
    (m : PyModule) (ca : List (String × CVal))
    (hnd : ((pre ++ ("hyperparameters", CVal.entries es) :: post).map Prod.fst).Nodup)
    (hnl : "hyperparameters_list" ∉
      (pre ++ ("hyperparameters", CVal.entries es) :: post).map Prod.fst)
    (h : moduleInit fs (pre ++ ("hyperparameters", CVal.entries es) :: post) = .ok (m, ca)) :
    m.hyperparameters = .entries (es.map List.dropLast) ∧
    (∀ l ea, parseHyperparameters fs es = .ok (l, ea) →
      m.hyperparameters_list = .dicts l) ∧
    (m.url = .jval (.vstr "") → es.map List.dropLast ≠ [] → ∀ lo,
      hardExampleMiningFunc lo m = .ok (.builtin
        [("method", m.name), ("param", m.hyperparameters)])) ∧
    (∀ lo co, isOkB (basemodelFunc lo co m) = false) := by
  obtain ⟨hl, _⟩ := moduleInit_ok h
  obtain ⟨m1, ca1, ca2, hA, hB, hC⟩ := parseConfigLoop_append pre _ initModule m ca hl
  have hB' : parseConfigLoop fs m1
      ([("hyperparameters", CVal.entries es)] ++ post) = .ok (m, ca2) := hB
  obtain ⟨m2, cb1, cb2, hBA, hBB, hCB⟩ :=
    parseConfigLoop_append [("hyperparameters", CVal.entries es)] post m1 m ca2 hB'
  cases hph : parseHyperparameters fs es with
  | error err => simp [parseConfigLoop, hph] at hBA
  | ok p =>
    obtain ⟨l, ea⟩ := p
    simp only [parseConfigLoop, hph, if_true] at hBA
    simp only [Except.ok.injEq, Prod.mk.injEq] at hBA
    obtain ⟨hm2, _⟩ := hBA
    rw [List.map_append, List.map_cons] at hnd
    have hpost1 : "hyperparameters" ∉ post.map Prod.fst :=
      (List.nodup_cons.mp hnd.of_append_right).1
    have hpost2 : "hyperparameters_list" ∉ post.map Prod.fst := by
      simp only [List.map_append, List.map_cons, List.mem_append, List.mem_cons] at hnl
      push_neg at hnl
      exact hnl.2.2
    have hfield := parseConfigLoop_fields post m2 m cb2 hBB hpost1 hpost2
    have hea : ea = es.map List.dropLast := parseHyperparameters_ea hph
    have hhp : m.hyperparameters = .entries (es.map List.dropLast) := by
      rw [hfield.1, ← hm2]
      simp [setField, hea]
    refine ⟨hhp, ?_, ?_, ?_⟩
    · intro l' ea' hph'
      simp only [Except.ok.injEq, Prod.mk.injEq] at hph'
      rw [hfield.2, ← hm2]
      simp [setField, hph'.1]
    · intro hurl hne lo
      cases hx : es.map List.dropLast with
      | nil => exact absurd hx hne
      | cons a as =>
        rw [hx] at hhp
        simp [hardExampleMiningFunc, hurl, hhp, truthy, dictSet]
    · intro lo co
      cases htu : truthy m.url with
      | false => simp [basemodelFunc, isOkB, htu]
      | true =>
        cases lo with
        | false => simp [basemodelFunc, isOkB, htu]
        | true => simp [basemodelFunc, isOkB, htu, hhp]

/-- C10 witness: the non-hyperparameter part of the configuration. -/
def cfgC10pre : List (String × CVal) :=
  [("type", .jval (.vstr "hard_example_mining")), ("name", .jval (.vstr "Miner")),
   ("url", .jval (.vstr ""))]

/-- C10 witness: one axis with two candidate values. -/
def esC10 : List (Entry JVal) :=
  [[("momentum", [("values", [.vstr "p9", .vstr "p95"])])]]

/-- The module the C10 witness configuration constructs. -/
def mC10 : PyModule :=
  ⟨.jval (.vstr "hard_example_mining"), .jval (.vstr "Miner"), .jval (.vstr ""),
   .entries [[]], .dicts [[("momentum", .vstr "p9")], [("momentum", .vstr "p95")]]⟩

/-- The configuration handed back by the C10 witness construction. -/
def caC10 : List (String × CVal) :=
  [("type", .jval (.vstr "hard_example_mining")), ("name", .jval (.vstr "Miner")),
   ("url", .jval (.vstr "")), ("hyperparameters", .entries [[]])]

theorem hyperparameters_attribute_raw_witness :
    mC10.hyperparameters = .entries (esC10.map List.dropLast) ∧
    mC10.hyperparameters_list =
      .dicts [[("momentum", JVal.vstr "p9")], [("momentum", JVal.vstr "p95")]] ∧
    hardExampleMiningFunc true mC10 = .ok (.builtin
      [("method", mC10.name), ("param", mC10.hyperparameters)]) ∧
    isOkB (basemodelFunc true true mC10) = false := by
  have H := hyperparameters_attribute_raw fsEmptyEnv cfgC10pre [] esC10 mC10 caC10
    (by decide) (by decide) rfl
  exact ⟨H.1, H.2.1 _ _ rfl, H.2.2.1 rfl (by decide) true, H.2.2.2 true true⟩

/-! ### The expansion at the object-identity level (aliasing between elements) -/

/-- A Python value at the object-identity level: an immutable atom (shared
freely, identity irrelevant) or a mutable container identified by its heap
address (its contents live in a heap `Nat → JVal`). -/
inductive AVal where
  | imm : JVal → AVal
  | mobj : Nat → AVal
deriving DecidableEq, Repr

/-- `copy.deepcopy` of one value at the identity level: immutable atoms need
no copy, every mutable container is recreated at a fresh address (the
threaded counter). -/
def deepcopyA : AVal → Nat → AVal × Nat
  | .imm v, c => (.imm v, c)
  | .mobj _, c => (.mobj c, c + 1)

/-- `Module._parse_hyperparameters` at the identity level: the same pipeline
with identity-tracking deepcopy; `c0` is the first unused heap address. -/
def parseHyperparametersA (fs : AVal → FileRes AVal) (es : List (Entry AVal))
    (c0 : Nat) : Except ModErr (List (Dict AVal) × List (Entry AVal) × Nat) :=
  parseHyperparametersGen deepcopyA fs es c0

/-- The heap addresses of the mutable values a dict holds. -/
def dictAddrs (d : Dict AVal) : List Nat :=
  d.filterMap fun p => match p.2 with | .mobj a => some a | .imm _ => none

/-- The heap addresses of the mutable values in a candidate list. -/
def listAddrs (l : List AVal) : List Nat :=
  l.filterMap fun v => match v with | .mobj a => some a | .imm _ => none

/-- All addresses held by the candidate lists of one axis specification. -/
def specAddrs (sp : SpecDict AVal) : List Nat :=
  (sp.map (fun p => listAddrs p.2)).flatten

/-- All addresses held by one axis entry. -/
def entryAddrs (e : Entry AVal) : List Nat :=
  (e.map (fun p => specAddrs p.2)).flatten

/-- All candidate addresses held by the declared configuration entries. -/
def entriesAddrs (es : List (Entry AVal)) : List Nat :=
  (es.map entryAddrs).flatten

/-- All addresses held by a list of combination dicts. -/
def combosAddrs (combos : List (Dict AVal)) : List Nat :=
  (combos.map dictAddrs).flatten

/-- All addresses held by the axes' candidate lists. -/
def axesAddrs (axes : List (String × List AVal)) : List Nat :=
  (axes.map (fun p => listAddrs p.2)).flatten

/-- Reading one value through the heap `h`. -/
def readVal (h : Nat → JVal) : AVal → JVal
  | .imm v => v
  | .mobj a => h a

/-- Reading a whole hyperparameter mapping through the heap `h`: what a
downstream consumer of the expanded element observes. -/
def readDict (h : Nat → JVal) (d : Dict AVal) : Dict JVal :=
  d.map fun p => (p.1, readVal h p.2)

theorem mem_dictAddrs_cons {rest : Dict AVal} {p : String × AVal} {a : Nat}
    (h : a ∈ dictAddrs rest) : a ∈ dictAddrs (p :: rest) := by
  obtain ⟨k, v⟩ := p
  cases v with
  | imm w => simpa [dictAddrs, List.filterMap_cons] using h
  | mobj b =>
    simp only [dictAddrs, List.filterMap_cons]
    exact List.mem_cons_of_mem b h

theorem head_mem_dictAddrs {rest : Dict AVal} {k : String} {b : Nat} :
    b ∈ dictAddrs ((k, .mobj b) :: rest) := by
  simp [dictAddrs, List.filterMap_cons]

theorem readDict_congr (h h' : Nat → JVal) :
    ∀ d : Dict AVal, (∀ a ∈ dictAddrs d, h a = h' a) → readDict h d = readDict h' d := by
  intro d
  induction d with
  | nil => intro _; rfl
  | cons p rest ih =>
    obtain ⟨k, v⟩ := p
    intro hag
    cases v with
    | imm w =>
      have : ∀ a ∈ dictAddrs rest, h a = h' a := by
        intro a ha
        exact hag a (by simpa [dictAddrs, List.filterMap_cons] using ha)
      simp [readDict, readVal] at ih ⊢
      exact ih this
    | mobj b =>
      have hb : h b = h' b := hag b head_mem_dictAddrs
      have : ∀ a ∈ dictAddrs rest, h a = h' a := by
        intro a ha
        exact hag a (mem_dictAddrs_cons ha)
      simp [readDict, readVal, hb] at ih ⊢
      exact ih this

theorem deepcopyDict_addr (d : Dict AVal) : ∀ s : Nat,
    s ≤ (deepcopyDict deepcopyA d s).2 ∧
    ∀ a ∈ dictAddrs (deepcopyDict deepcopyA d s).1,
      s ≤ a ∧ a < (deepcopyDict deepcopyA d s).2 := by
  induction d with
  | nil => intro s; exact ⟨Nat.le_refl s, by simp [deepcopyDict, dictAddrs]⟩
  | cons p rest ih =>
    obtain ⟨k, v⟩ := p
    intro s
    cases v with
    | imm w =>
      obtain ⟨h1, h2⟩ := ih s
      refine ⟨h1, ?_⟩
      intro a ha
      simp only [deepcopyDict, deepcopyA] at ha ⊢
      exact h2 a (by simpa [dictAddrs, List.filterMap_cons] using ha)
    | mobj b =>
      obtain ⟨h1, h2⟩ := ih (s + 1)
      constructor
      · simp only [deepcopyDict, deepcopyA]
        omega
      · intro a ha
        simp only [deepcopyDict, deepcopyA, dictAddrs, List.filterMap_cons] at ha ⊢
        rcases List.mem_cons.mp ha with rfl | ha'
        · exact ⟨Nat.le_refl a, by omega⟩
        · obtain ⟨hx, hy⟩ := h2 a ha'
          exact ⟨by omega, hy⟩

theorem dictAddrs_dictSet_sub (d : Dict AVal) (k : String) (v : AVal) :
    ∀ a ∈ dictAddrs (dictSet d k v), a ∈ dictAddrs d ∨ a ∈ dictAddrs [(k, v)] := by
  induction d with
  | nil =>
    intro a ha
    exact Or.inr (by simpa [dictSet] using ha)
  | cons p rest ih =>
    obtain ⟨k', v'⟩ := p
    intro a ha
    by_cases hk : k' = k
    · simp only [dictSet, if_pos hk] at ha
      cases v with
      | imm w =>
        left
        exact mem_dictAddrs_cons (by simpa [dictAddrs, List.filterMap_cons] using ha)
      | mobj b =>
        simp only [dictAddrs, List.filterMap_cons] at ha
        rcases List.mem_cons.mp ha with rfl | ha'
        · exact Or.inr (by simp [dictAddrs])
        · exact Or.inl (mem_dictAddrs_cons ha')
    · simp only [dictSet, if_neg hk] at ha
      cases v' with
      | imm w =>
        rcases ih a (by simpa [dictAddrs, List.filterMap_cons] using ha) with h | h
        · exact Or.inl (mem_dictAddrs_cons h)
        · exact Or.inr h
      | mobj b =>
        simp only [dictAddrs, List.filterMap_cons] at ha
        rcases List.mem_cons.mp ha with rfl | ha'
        · exact Or.inl head_mem_dictAddrs
        · rcases ih a ha' with h | h
          · exact Or.inl (mem_dictAddrs_cons h)
          · exact Or.inr h

theorem dictAddrs_dictUpdate_sub (e : Dict AVal) :
    ∀ d, ∀ a ∈ dictAddrs (dictUpdate d e), a ∈ dictAddrs d ∨ a ∈ dictAddrs e := by
  induction e with
  | nil => intro d a ha; exact Or.inl ha
  | cons p rest ih =>
    obtain ⟨k, v⟩ := p
    intro d a ha
    rcases ih (dictSet d k v) a ha with h | h
    · rcases dictAddrs_dictSet_sub d k v a h with h' | h'
      · exact Or.inl h'
      · right
        cases v with
        | imm w => simp [dictAddrs] at h'
        | mobj b =>
          simp only [dictAddrs, List.filterMap_cons] at h'
          simp only [List.filterMap_nil] at h'
          rcases List.mem_cons.mp h' with rfl | hfalse
          · exact head_mem_dictAddrs
          · exact absurd hfalse (List.not_mem_nil a)
    · exact Or.inr (mem_dictAddrs_cons h)

theorem mem_combosAddrs {combos : List (Dict AVal)} {c : Dict AVal} {a : Nat}
    (hc : c ∈ combos) (ha : a ∈ dictAddrs c) : a ∈ combosAddrs combos := by
  simp only [combosAddrs, List.mem_flatten, List.mem_map]
  exact ⟨dictAddrs c, ⟨c, hc, rfl⟩, ha⟩

theorem combosAddrs_cons_sub {c : Dict AVal} {rest : List (Dict AVal)} {a : Nat}
    (h : a ∈ combosAddrs rest) : a ∈ combosAddrs (c :: rest) := by
  simp only [combosAddrs, List.map_cons, List.flatten_cons, List.mem_append]
  exact Or.inr (by simpa [combosAddrs] using h)

theorem expandCombos_addr (combos : List (Dict AVal)) (base : Dict AVal) :
    ∀ s : Nat, (∀ a ∈ combosAddrs combos, a < s) →
      s ≤ (expandCombos deepcopyA base combos s).2 ∧
      (expandCombos deepcopyA base combos s).1.Pairwise
        (fun x y => ∀ a, a ∈ dictAddrs x → a ∈ dictAddrs y → a ∈ combosAddrs combos) ∧
      (∀ y ∈ (expandCombos deepcopyA base combos s).1, ∀ a ∈ dictAddrs y,
        a ∈ combosAddrs combos ∨
          (s ≤ a ∧ a < (expandCombos deepcopyA base combos s).2)) := by
  induction combos with
  | nil =>
    intro s _
    exact ⟨Nat.le_refl s, by simp [expandCombos], by simp [expandCombos]⟩
  | cons c rest ih =>
    intro s hlt
    obtain ⟨hd1, hd2⟩ := deepcopyDict_addr base s
    have hltrest : ∀ a ∈ combosAddrs rest, a < (deepcopyDict deepcopyA base s).2 := by
      intro a ha
      exact Nat.lt_of_lt_of_le (hlt a (combosAddrs_cons_sub ha)) hd1
    obtain ⟨he1, he2, he3⟩ := ih (deepcopyDict deepcopyA base s).2 hltrest
    have hheadaddr : ∀ a ∈ dictAddrs (dictUpdate (deepcopyDict deepcopyA base s).1 c),
        a ∈ dictAddrs c ∨ (s ≤ a ∧ a < (deepcopyDict deepcopyA base s).2) := by
      intro a ha
      rcases dictAddrs_dictUpdate_sub c (deepcopyDict deepcopyA base s).1 a ha with h | h
      · exact Or.inr (hd2 a h)
      · exact Or.inl h
    refine ⟨?_, ?_, ?_⟩
    · simp only [expandCombos]
      exact Nat.le_trans hd1 he1
    · simp only [expandCombos]
      refine List.Pairwise.cons ?_ ?_
      · intro y hy a hax hay
        rcases hheadaddr a hax with h | h
        · exact mem_combosAddrs (List.mem_cons_self c rest) h
        · rcases he3 y hy a hay with h' | h'
          · exact absurd (hlt a (combosAddrs_cons_sub h')) (by omega)
          · exact absurd h'.1 (by omega)
      · exact he2.imp (fun hR a h1 h2 => combosAddrs_cons_sub (hR a h1 h2))
    · simp only [expandCombos]
      intro y hy a ha
      rcases List.mem_cons.mp hy with rfl | hy'
      · rcases hheadaddr a ha with h | h
        · exact Or.inl (mem_combosAddrs (List.mem_cons_self c rest) h)
        · exact Or.inr ⟨h.1, Nat.lt_of_lt_of_le h.2 he1⟩
      · rcases he3 y hy' a ha with h | h
        · exact Or.inl (combosAddrs_cons_sub h)
        · exact Or.inr ⟨Nat.le_trans hd1 h.1, h.2⟩

theorem parseHyperparametersGen_ok {α σ : Type} {dc : α → σ → α × σ}
    {fs : α → FileRes α} {es : List (Entry α)} {s0 : σ}
    {l : List (Dict α)} {ea : List (Entry α)} {s1 : σ}
    (h : parseHyperparametersGen dc fs es s0 = .ok (l, ea, s1)) :
    ∃ col axes, collectAxes fs es [] [] [] = .ok col ∧
      resolveAxes col.axes = .ok axes ∧
      l = (expandCombos dc col.base (getFullCombinations axes) s0).1 ∧
      ea = col.entriesAfter := by
  unfold parseHyperparametersGen at h
  cases hc : collectAxes fs es [] [] [] with
  | error err => simp [hc] at h
  | ok col =>
    simp only [hc] at h
    cases hr : resolveAxes col.axes with
    | error err => simp [hr] at h
    | ok axes =>
      simp only [hr] at h
      simp only [Except.ok.injEq, Prod.mk.injEq] at h
      exact ⟨col, axes, rfl, hr, h.1.symm, h.2.1.symm⟩

theorem dictGet?_mem {α : Type} : ∀ (d : Dict α) (k : String) (v : α),
    dictGet? d k = some v → (k, v) ∈ d := by
  intro d
  induction d with
  | nil => intro k v h; simp [dictGet?] at h
  | cons p rest ih =>
    obtain ⟨k', w⟩ := p
    intro k v h
    simp only [dictGet?] at h
    by_cases hk : k' = k
    · rw [if_pos hk] at h
      simp only [Option.some.injEq] at h
      subst hk; subst h
      exact List.mem_cons_self _ _
    · rw [if_neg hk] at h
      exact List.mem_cons_of_mem _ (ih k v h)

theorem getLast?_mem_of_eq {α : Type} {l : List α} {a : α}
    (h : l.getLast? = some a) : a ∈ l := by
  have hx := List.mem_getLast?_eq_getLast (l := l) (x := a) (by rw [h]; rfl)
  obtain ⟨hne, rfl⟩ := hx
  exact List.getLast_mem hne

theorem mem_specAddrs {sp : SpecDict AVal} {vs : List AVal} {k : String}
    (hm : (k, vs) ∈ sp) {a : Nat} (ha : a ∈ listAddrs vs) : a ∈ specAddrs sp := by
  simp only [specAddrs, List.mem_flatten, List.mem_map]
  exact ⟨listAddrs vs, ⟨(k, vs), hm, rfl⟩, ha⟩

theorem mem_entryAddrs {e : Entry AVal} {sp : SpecDict AVal} {n : String}
    (hm : (n, sp) ∈ e) {a : Nat} (ha : a ∈ specAddrs sp) : a ∈ entryAddrs e := by
  simp only [entryAddrs, List.mem_flatten, List.mem_map]
  exact ⟨specAddrs sp, ⟨(n, sp), hm, rfl⟩, ha⟩

theorem mem_entriesAddrs {es : List (Entry AVal)} {e : Entry AVal}
    (hm : e ∈ es) {a : Nat} (ha : a ∈ entryAddrs e) : a ∈ entriesAddrs es := by
  simp only [entriesAddrs, List.mem_flatten, List.mem_map]
  exact ⟨entryAddrs e, ⟨e, hm, rfl⟩, ha⟩

theorem getFullCombinations_addrs (axes : List (String × List AVal)) :
    ∀ c ∈ getFullCombinations axes, ∀ a ∈ dictAddrs c, a ∈ axesAddrs axes := by
  induction axes with
  | nil =>
    intro c hc a ha
    simp only [getFullCombinations, List.mem_singleton] at hc
    subst hc
    simp [dictAddrs] at ha
  | cons p rest ih =>
    obtain ⟨n, vs⟩ := p
    intro c hc a ha
    simp only [getFullCombinations, List.mem_flatten, List.mem_map] at hc
    obtain ⟨lc, ⟨v, hv, hlc⟩, hcl⟩ := hc
    rw [← hlc] at hcl
    simp only [List.mem_map] at hcl
    obtain ⟨c', hc', hcc⟩ := hcl
    subst hcc
    simp only [axesAddrs, List.map_cons, List.flatten_cons, List.mem_append]
    cases v with
    | imm w =>
      have ha' : a ∈ dictAddrs c' := by
        simpa [dictAddrs, List.filterMap_cons] using ha
      exact Or.inr (by simpa [axesAddrs] using ih c' hc' a ha')
    | mobj b =>
      simp only [dictAddrs, List.filterMap_cons] at ha
      rcases List.mem_cons.mp ha with rfl | ha'
      · left
        simp only [listAddrs, List.mem_filterMap]
        exact ⟨.mobj a, hv, rfl⟩
      · exact Or.inr (by simpa [axesAddrs] using ih c' hc' a ha')

theorem combosAddrs_sub_axes (axes : List (String × List AVal)) :
    ∀ a ∈ combosAddrs (getFullCombinations axes), a ∈ axesAddrs axes := by
  intro a ha
  simp only [combosAddrs, List.mem_flatten, List.mem_map] at ha
  obtain ⟨la, ⟨c, hc, hla⟩, hala⟩ := ha
  rw [← hla] at hala
  exact getFullCombinations_addrs axes c hc a hala

/-- Every address occurring in the full combinations originates from a
candidate list of the configuration entries. -/
theorem combos_addrs_entries {fs : AVal → FileRes AVal} {es : List (Entry AVal)}
    {col : Collected AVal} {axes : List (String × List AVal)}
    (hcol : collectAxes fs es [] [] [] = .ok col)
    (hres : resolveAxes col.axes = .ok axes) :
    ∀ a ∈ combosAddrs (getFullCombinations axes), a ∈ entriesAddrs es := by
  intro a ha
  have h1 : a ∈ axesAddrs axes := combosAddrs_sub_axes axes a ha
  have h2 : axes.map (fun p => (p.1, some p.2)) = axesOf es := by
    have hca := (collectAxes_ok fs es [] [] [] col hcol).1
    have hra := resolveAxes_ok col.axes axes hres
    rw [← hra]
    simpa using hca
  simp only [axesAddrs, List.mem_flatten, List.mem_map] at h1
  obtain ⟨la, ⟨p, hpmem, hpla⟩, hala⟩ := h1
  rw [← hpla] at hala
  have hpm : (p.1, some p.2) ∈ axesOf es := by
    rw [← h2]
    exact List.mem_map_of_mem _ hpmem
  simp only [axesOf, List.mem_filterMap] at hpm
  obtain ⟨e, hemem, hfe⟩ := hpm
  cases hpe : popitem e with
  | none => simp [hpe] at hfe
  | some q =>
    obtain ⟨⟨n, sp⟩, r⟩ := q
    simp only [hpe] at hfe
    by_cases hr : n = "other_hyperparameters"
    · rw [if_pos hr] at hfe; simp at hfe
    · rw [if_neg hr] at hfe
      simp only [Option.some.injEq, Prod.mk.injEq] at hfe
      obtain ⟨hn, hv⟩ := hfe
      have hv' : dictGet? sp "values" = some p.2 := by
        cases hvv : dictGet? sp "values" with
        | none => rw [hvv] at hv; simp at hv
        | some vs => rw [hvv] at hv; simp at hv; rw [hv]
      have hvm : ("values", p.2) ∈ sp := dictGet?_mem sp "values" p.2 hv'
      have h3 : a ∈ specAddrs sp := mem_specAddrs hvm hala
      have h4 : (n, sp) ∈ e := getLast?_mem_of_eq (popitem_some hpe).2
      exact mem_entriesAddrs hemem (mem_entryAddrs h4 h3)

/-- C9 counterexample file environment (no files needed). -/
def fsC9 : AVal → FileRes AVal := fun _ => .notLocal

/-- C9 counterexample axes: axis `a` holds one mutable candidate (address 0),
axis `b` holds two immutable candidates. -/
def esC9 : List (Entry AVal) :=
  [[("a", [("values", [.mobj 0])])],
   [("b", [("values", [.imm (.vint 1), .imm (.vint 2)])])]]

/-- First expanded element for `esC9`. -/
def d0C9 : Dict AVal := [("a", .mobj 0), ("b", .imm (.vint 1))]

/-- Second expanded element for `esC9`. -/
def d1C9 : Dict AVal := [("a", .mobj 0), ("b", .imm (.vint 2))]

/-- A heap before mutating the object at address 0. -/
def h0C9 : Nat → JVal := fun _ => .vnone

/-- The same heap after mutating the object at address 0 through element 0. -/
def h1C9 : Nat → JVal := fun a => if a = 0 then .vint 7 else .vnone

/-- C9 counterexample: the two expanded elements share the mutable candidate
object at address 0 — `deepcopy` covers only the base mapping, combination
values are inserted by reference.  A heap mutation confined to the addresses
of element 0 changes what element 1 reads, so the elements are not pairwise
independent deep copies. -/
theorem expansion_sharing_cex :
    parseHyperparametersA fsC9 esC9 10 = .ok ([d0C9, d1C9], [[], []], 10) ∧
    (∀ a, a ∉ dictAddrs d0C9 → h0C9 a = h1C9 a) ∧
    readDict h0C9 d1C9 ≠ readDict h1C9 d1C9 := by
  refine ⟨rfl, ?_, by decide⟩
  intro a ha
  simp only [dictAddrs, d0C9, List.filterMap_cons] at ha
  simp only [List.filterMap_nil, List.mem_cons, List.not_mem_nil, or_false] at ha
  simp [h0C9, h1C9, ha]

/-- C9 (amended): elements of the expanded list share no mutable state
originating from the base mapping — each element's base portion is a fresh
deep copy — but values contributed by axis candidate lists are inserted by
reference and may be shared.  Hence a heap mutation confined to addresses of
element `i` that do not originate from the configuration's candidate lists
leaves every other element unchanged. -/
theorem expansion_isolation_amended (fs : AVal → FileRes AVal)
    (es : List (Entry AVal)) (c0 : Nat) (l : List (Dict AVal))
    (ea : List (Entry AVal)) (c1 : Nat)
    (hp : parseHyperparametersA fs es c0 = .ok (l, ea, c1))
    (hc : ∀ a ∈ entriesAddrs es, a < c0)
    (i j : Fin l.length) (hij : i ≠ j) (h h' : Nat → JVal)
    (hagree : ∀ a, (a ∉ dictAddrs (l.get i) ∨ a ∈ entriesAddrs es) → h a = h' a) :
    readDict h (l.get j) = readDict h' (l.get j) := by
  obtain ⟨col, axes, hcol, hres, hl, hea⟩ := parseHyperparametersGen_ok hp
  have hce : ∀ a ∈ combosAddrs (getFullCombinations axes), a ∈ entriesAddrs es :=
    combos_addrs_entries hcol hres
  have hcomb : ∀ a ∈ combosAddrs (getFullCombinations axes), a < c0 :=
    fun a ha => hc a (hce a ha)
  obtain ⟨_, hpw, _⟩ := expandCombos_addr (getFullCombinations axes) col.base c0 hcomb
  subst hl
  apply readDict_congr
  intro a ha
  by_cases hai : a ∈ dictAddrs
      ((expandCombos deepcopyA col.base (getFullCombinations axes) c0).1.get i)
  · have hshared : a ∈ combosAddrs (getFullCombinations axes) := by
      rcases lt_trichotomy i j with hlt | heq | hgt
      · exact (List.pairwise_iff_get.mp hpw i j hlt) a hai ha
      · exact absurd heq hij
      · exact (List.pairwise_iff_get.mp hpw j i hgt) a ha hai
    exact hagree a (Or.inr (hce a hshared))
  · exact hagree a (Or.inl hai)

/-- C9 witness file environment: one base file holding a mutable container at
address 3. -/
def fsW9 : AVal → FileRes AVal := fun f =>
  if f = .imm (.vstr "basefile") then .ok [("w", .mobj 3)] else .notLocal

/-- C9 witness axes: a reserved base-file axis plus one candidate axis. -/
def esW9 : List (Entry AVal) :=
  [[("other_hyperparameters", [("values", [.imm (.vstr "basefile")])])],
   [("x", [("values", [.imm (.vint 1), .imm (.vint 2)])])]]

/-- First expanded element for `esW9`: the base copy lives at fresh address 10. -/
def lW9a : Dict AVal := [("w", .mobj 10), ("x", .imm (.vint 1))]

/-- Second expanded element for `esW9`: its base copy lives at address 11. -/
def lW9b : Dict AVal := [("w", .mobj 11), ("x", .imm (.vint 2))]

/-- A heap before mutating element 0's base copy. -/
def h0W9 : Nat → JVal := fun _ => .vnone

/-- The heap after mutating element 0's base copy (address 10). -/
def h1W9 : Nat → JVal := fun a => if a = 10 then .vint 9 else .vnone

theorem expansion_isolation_amended_witness :
    readDict h0W9 lW9b = readDict h1W9 lW9b := by
  have hc : ∀ a ∈ entriesAddrs esW9, a < 10 := by
    intro a ha
    rw [show entriesAddrs esW9 = [] from rfl] at ha
    exact absurd ha (List.not_mem_nil a)
  have hagree : ∀ a, (a ∉ dictAddrs (([lW9a, lW9b] : List (Dict AVal)).get ⟨0, by decide⟩) ∨
      a ∈ entriesAddrs esW9) → h0W9 a = h1W9 a := by
    intro a hcond
    rcases hcond with hna | hfalse
    · have h10 : ¬ a = 10 := by
        intro hh
        exact hna (by rw [hh]; decide)
      simp [h0W9, h1W9, h10]
    · rw [show entriesAddrs esW9 = [] from rfl] at hfalse
      exact absurd hfalse (List.not_mem_nil a)
  exact expansion_isolation_amended fsW9 esW9 10 [lW9a, lW9b] [[], []] 12 rfl hc
    ⟨0, by decide⟩ ⟨1, by decide⟩ (by decide) h0W9 h1W9 hagree
